import Mathlib

/-
Verification development for the KAIKO terminal rhythm game core.

The Python sources are shallowly embedded: every definition below mirrors a
function or method of the repository (file and symbol named in its doc
comment).  Machine floats of the source are modelled by rationals, Python
ints by Lean integers, and fallible code by Option.
-/

namespace KAIKO

/-- Python conversion `int(q)` on a rational: truncation toward zero. -/
def pyInt (q : ℚ) : ℤ := if 0 ≤ q then ⌊q⌋ else ⌈q⌉

/-! ### Judgement (src/kaiko/beatmap.py, Performance) -/

/-- Grades of `PerformanceGrade`: `none` is MISS, otherwise a pair of the
shift in `{-3, …, 3}` and the wrong-key flag, matching the enum values. -/
abbrev Grade := Option (ℤ × Bool)

/-- Enum member `PerformanceGrade.MISS = (None, None)`. -/
def Grade.MISS : Grade := none

/-- Enum member `PerformanceGrade.PERFECT = (0, False)`. -/
def Grade.PERFECT : Grade := some (0, false)

/-- Enum member `PerformanceGrade.LATE_GOOD = (+1, False)`. -/
def Grade.LATE_GOOD : Grade := some (1, false)

/-- Enum member `PerformanceGrade.EARLY_FAILED = (-3, False)`. -/
def Grade.EARLY_FAILED : Grade := some (-3, false)

/-- Result object of `Performance.judge` (grade, expected time, error). -/
structure Performance where
  grade : Grade
  time : ℚ
  err : Option ℚ
deriving DecidableEq

/-- Embedding of `Performance.judge(tol, time, hit_time, is_correct_key)`
from src/kaiko/beatmap.py.  The Python
`next((i for i in range(3) if abs(err) < tol*(2*i+1)), 3)` is the first
`i` among `0, 1, 2` whose bound holds, with default `3`. -/
def Performance.judge (tol time : ℚ) (hitTime : Option ℚ) (isCorrectKey : Bool) :
    Performance :=
  match hitTime with
  | none => { grade := Grade.MISS, time := time, err := none }
  | some ht =>
    let isWrong := !isCorrectKey
    let err := ht - time
    let shift0 : ℕ :=
      ((List.range 3).find? (fun (i : ℕ) => decide (|err| < tol * (2 * (i : ℚ) + 1)))).getD 3
    let shift : ℤ := if err < 0 then -(shift0 : ℤ) else (shift0 : ℤ)
    { grade := some (shift, isWrong), time := time, err := some err }

/-- Shift magnitude as the specification words it: the least
`i ∈ {0,1,2,3}` with `|err| < tol·(2i+1)`, and `3` when no such `i`
exists (the head of the sorted list of solutions in `{0,1,2,3}`). -/
def specShiftMin (tol err : ℚ) : ℕ :=
  (((List.range 4).filter (fun (i : ℕ) => decide (|err| < tol * (2 * (i : ℚ) + 1)))).head?).getD 3

/-! ### Beat/time conversion (src/kaiko/beatmap.py, Beatmap) -/

/-- The timing fields of a `Beatmap`. -/
structure Beatmap where
  offset : ℚ
  tempo : ℚ

/-- Embedding of `Beatmap.time(beat) = offset + beat*60/tempo`. -/
def Beatmap.time (bm : Beatmap) (beat : ℚ) : ℚ := bm.offset + beat * 60 / bm.tempo

/-- Embedding of `Beatmap.beat(time) = (time - offset)*tempo/60`. -/
def Beatmap.beat (bm : Beatmap) (time : ℚ) : ℚ := (time - bm.offset) * bm.tempo / 60

/-! ### Roll (src/kaiko/beatmap.py, Roll) -/

/-- The scoring fields of a `Roll` target: `rock_score`, the rock count
`number`, and the hit counter `roll`. -/
structure Roll where
  rockScore : ℤ
  number : ℤ
  roll : ℤ
deriving DecidableEq

/-- Constructor part of `Roll.__init__`: `number = int(length * density)`,
`roll = 0`, `rock_score` from the settings. -/
def mkRoll (length density : ℚ) (rockScore : ℤ) : Roll :=
  { rockScore := rockScore, number := pyInt (length * density), roll := 0 }

/-- Embedding of the `Roll.score` property. -/
def Roll.score (r : Roll) : ℤ :=
  if r.roll < r.number then r.roll * r.rockScore
  else if r.roll < 2 * r.number then (2 * r.number - r.roll) * r.rockScore
  else 0

/-- Counter update of `Roll.hit`: `self.roll += 1` (the rest of the method
only records a `Performance` and removes a drawn rock). -/
def Roll.hit (r : Roll) : Roll := { r with roll := r.roll + 1 }

/-! ### Spin (src/kaiko/beatmap.py, Spin) -/

/-- The scoring fields of a `Spin` target. -/
structure Spin where
  fullScore : ℤ
  charge : ℚ
  capacity : ℚ
  isFinished : Bool
deriving DecidableEq

/-- Embedding of the `Spin.score` property:
`int(full_score*charge/capacity)` while unfinished, else `full_score` when
the charge reached the capacity and `0` otherwise. -/
def Spin.score (s : Spin) : ℤ :=
  if !s.isFinished then pyInt ((s.fullScore : ℚ) * s.charge / s.capacity)
  else if s.charge = s.capacity then s.fullScore else 0

/-- Embedding of `Spin.hit`:
`charge = min(charge + min(1.0, strength), capacity)`, and when the new
charge equals the capacity, `finish` marks the spin finished. -/
def Spin.hit (s : Spin) (strength : ℚ) : Spin :=
  let newCharge := min (s.charge + min 1 strength) s.capacity
  if newCharge = s.capacity then { s with charge := newCharge, isFinished := true }
  else { s with charge := newCharge }

/-- State change of `Spin.finish` when the judgement window closes:
`is_finished = True` (the remaining lines only draw). -/
def Spin.finish (s : Spin) : Spin := { s with isFinished := true }

/-- The scenario of the spec: a spin of capacity 10 (and the default
`spin_score = 16`) accumulating charge 7.3 through seven full-strength
hits and one hit of strength 0.3, after which the window closes. -/
def spinScenario : Spin :=
  Spin.finish (((fun s => Spin.hit s 1)^[7]
    { fullScore := 16, charge := 0, capacity := 10, isFinished := false }).hit (3/10))

/-! ### Score rescaling at startup (src/kaiko/beatmap.py, KAIKOGame.connect) -/

/-- Embedding of `self.score_scale = 65536 / total_score` in
`KAIKOGame.connect`.  Python raises `ZeroDivisionError` when
`total_score == 0`, modelled as `none`. -/
def scoreScale (totalScore : ℤ) : Option ℚ :=
  if totalScore = 0 then none else some (65536 / (totalScore : ℚ))

/-- The startup computation of `KAIKOGame.connect` on the full scores of the
built events: `total_score = sum(...)` followed by the rescaling. -/
def connectScale (fullScores : List ℤ) : Option ℚ := scoreScale fullScores.sum

/-! ### unchunk (src/realtime_analysis.py, unchunk) -/

/-- Inner loop of `unchunk` on one received array, with explicit fuel (one
unit per loop pass; `data.length` units always suffice because each pass
moves at least one element while the buffer is not full).  Mirrors:
`while data.shape[0] > 0: length = min(chunk - index, len(data)); copy;`
and when the buffer fills, send it to the inner node and reset.  Returns
the blocks sent to the inner node and the leftover buffer contents. -/
def unchunkFeedAux (s : ℕ) : ℕ → List ℚ → List ℚ → List (List ℚ) × List ℚ
  | 0, buffer, _ => ([], buffer)
  | _ + 1, buffer, [] => ([], buffer)
  | fuel + 1, buffer, x :: data =>
    if buffer.length < s then
      let len := min (s - buffer.length) (x :: data).length
      let buffer2 := buffer ++ (x :: data).take len
      let data2 := (x :: data).drop len
      if buffer2.length = s then
        let r := unchunkFeedAux s fuel [] data2
        (buffer2 :: r.1, r.2)
      else
        unchunkFeedAux s fuel buffer2 data2
    else ([], buffer)

/-- One `data = yield` round of `unchunk`. -/
def unchunkFeed (s : ℕ) (buffer data : List ℚ) : List (List ℚ) × List ℚ :=
  unchunkFeedAux s data.length buffer data

/-- Runs `unchunk` over a whole input stream, collecting every block the
inner node receives and the final buffer.  On close the generator simply
stops: the code has no handler that would flush or pad the buffer, so the
leftover elements are dropped. -/
def unchunkRun (s : ℕ) (buffer : List ℚ) : List (List ℚ) → List (List ℚ) × List ℚ
  | [] => ([], buffer)
  | d :: ds =>
    let r := unchunkFeed s buffer d
    let r2 := unchunkRun s r.2 ds
    (r.1 ++ r2.1, r2.2)

/-- The blocks the inner node of `unchunk(node, s)` receives over a
complete run of the input stream. -/
def unchunkSends (s : ℕ) (inputs : List (List ℚ)) : List (List ℚ) :=
  (unchunkRun s [] inputs).1

/-! ### Mixer shift (src/kaiko/knock.py, AudioMixer._shift) -/

/-- One pass of the negative-offset discard loop of `AudioMixer._shift`:
`length = min(-offset, buffer_length); node.send(dummy); offset -= length`.
The loop guard is `offset < 0`. -/
def shiftDiscardStep (bufferLength offset : ℤ) : ℤ :=
  offset - min (-offset) bufferLength

/-! ### pick_peak (src/realtime_analysis.py, pick_peak) -/

/-- Generator state of `pick_peak`: the running sample buffer (newest
sample last), the step index and the index of the previous detection. -/
structure PickState where
  buffer : List ℚ
  index : ℤ
  prev : ℤ
deriving DecidableEq

/-- Initial state of `pick_peak`:
`buffer = zeros(center+delay+1)`, `index = -delay`, `prev_index = -wait`
with `center = max(pre_max, pre_avg)` and `delay = max(post_max, post_avg)`. -/
def pickInit (preMax postMax preAvg postAvg wait : ℕ) : PickState :=
  { buffer := List.replicate (max preMax preAvg + max postMax postAvg + 1) 0
    index := -((max postMax postAvg : ℕ) : ℤ)
    prev := -(wait : ℤ) }

/-- One loop iteration of `pick_peak` on a newly received sample `x`: the
buffer shifts left and takes `x` at the end, the index advances, and the
output is true iff `index > prev_index + wait`, the centre sample equals
the max of `buffer[center-pre_max : center+post_max+1]`, and it is at
least the mean of `buffer[center-pre_avg : center+post_avg+1]` plus
`delta`.  A detection updates `prev_index`. -/
def pickStep (preMax postMax preAvg postAvg wait : ℕ) (delta : ℚ)
    (st : PickState) (x : ℚ) : Bool × PickState :=
  let center := max preMax preAvg
  let buffer := st.buffer.tail ++ [x]
  let index := st.index + 1
  let strength := buffer.getD center 0
  let maxBuf := (buffer.drop (center - preMax)).take (preMax + postMax + 1)
  let avgBuf := (buffer.drop (center - preAvg)).take (preAvg + postAvg + 1)
  let det := decide (st.prev + (wait : ℤ) < index) &&
    decide (maxBuf.maximum = (strength : WithBot ℚ)) &&
    decide (avgBuf.sum / (avgBuf.length : ℚ) + delta ≤ strength)
  (det, { buffer := buffer, index := index, prev := if det then index else st.prev })

/-- Runs `pick_peak` from a given state over a list of input samples. -/
def pickRun (preMax postMax preAvg postAvg wait : ℕ) (delta : ℚ) :
    PickState → List ℚ → List Bool
  | _, [] => []
  | st, x :: xs =>
    let r := pickStep preMax postMax preAvg postAvg wait delta st x
    r.1 :: pickRun preMax postMax preAvg postAvg wait delta r.2 xs

/-- Embedding of the data node `pick_peak(pre_max, post_max, pre_avg,
post_avg, wait, delta)`: the outputs produced for a list of inputs. -/
def pick_peak (preMax postMax preAvg postAvg wait : ℕ) (delta : ℚ)
    (xs : List ℚ) : List Bool :=
  pickRun preMax postMax preAvg postAvg wait delta
    (pickInit preMax postMax preAvg postAvg wait) xs

/-- Modelled from the spec: the input signal continued by zero outside its
range, as the zero-initialised running buffer of `pick_peak` presents it. -/
def paddedGet (xs : List ℚ) (j : ℤ) : ℚ :=
  if 0 ≤ j then xs.getD j.toNat 0 else 0

/-- Modelled from the spec: the window `[d - a, d + b]` of the padded
signal around decision position `d`. -/
def specWindow (xs : List ℚ) (d : ℤ) (a b : ℕ) : List ℚ :=
  (List.range (a + b + 1)).map (fun (i : ℕ) => paddedGet xs (d - (a : ℤ) + (i : ℤ)))

/-- Modelled from the spec: the re-arm gate, true when at least `wait`
samples lie strictly between the previous detection and position `k`
(before any detection, true from the first position at which the built-in
delay has elapsed). -/
def specGate (delay wait : ℕ) (last : Option ℕ) (k : ℕ) : Bool :=
  match last with
  | none => decide (delay ≤ k)
  | some p => decide (p + wait < k)

/-- Modelled from the spec: the decision for output position `k` (whose
decision sample sits `max(post_max, post_avg)` positions before it): the
centre sample equals the max over `[-pre_max, +post_max]`, is at least the
mean over `[-pre_avg, +post_avg]` plus `delta`, and the gate is open. -/
def specDetect (preMax postMax preAvg postAvg wait : ℕ) (delta : ℚ)
    (xs : List ℚ) (last : Option ℕ) (k : ℕ) : Bool :=
  let delay := max postMax postAvg
  let d : ℤ := (k : ℤ) - (delay : ℤ)
  let strength := paddedGet xs d
  let mwin := specWindow xs d preMax postMax
  let awin := specWindow xs d preAvg postAvg
  specGate delay wait last k &&
    decide (mwin.maximum = (strength : WithBot ℚ)) &&
    decide (awin.sum / ((preAvg + postAvg + 1 : ℕ) : ℚ) + delta ≤ strength)

/-- Modelled from the spec: successive decisions from position `k` on,
threading the position of the last detection. -/
def specGo (preMax postMax preAvg postAvg wait : ℕ) (delta : ℚ)
    (xs : List ℚ) : ℕ → ℕ → Option ℕ → List Bool
  | 0, _, _ => []
  | n + 1, k, last =>
    let det := specDetect preMax postMax preAvg postAvg wait delta xs last k
    det :: specGo preMax postMax preAvg postAvg wait delta xs n (k + 1)
      (if det then some k else last)

/-- Modelled from the spec: the peak-picking behaviour as the specification
describes it, one output per input. -/
def pickPeakSpec (preMax postMax preAvg postAvg wait : ℕ) (delta : ℚ)
    (xs : List ℚ) : List Bool :=
  specGo preMax postMax preAvg postAvg wait delta xs xs.length 0 none

/-- The `prev_index` value of the generator corresponding to a last
detection at output position `p` (`index` was `p + 1 - delay` there), and
to the initial `-wait` before any detection. -/
def lastPrev (delay wait : ℕ) : Option ℕ → ℤ
  | none => -(wait : ℤ)
  | some p => (p : ℤ) + 1 - (delay : ℤ)

/-- The contents of the running buffer of `pick_peak` after `m` received
samples: the window of the zero-padded input ending at sample `m - 1`. -/
def winBuf (xs : List ℚ) (N : ℕ) (m : ℤ) : List ℚ :=
  (List.range N).map (fun (i : ℕ) => paddedGet xs (m - (N : ℤ) + (i : ℤ)))

/-! ### Event registration loop (src/kaiko/beatmap.py, KAIKOGame.connect) -/

/-- The registration test of the game loop:
`event.lifespan[0] <= time + prepare_time`. -/
def registerReady (prepareTime t e : ℚ) : Bool := decide (e ≤ t + prepareTime)

/-- Embedding of the per-tick part of the game loop in `KAIKOGame.connect`:
for each tick time, first `break` when `max(events_end_time, duration) <=
time` (the bound is `endTime` here), otherwise register every pending
event with `lifespan[0] <= time + prepare_time`, in list order.  Events
are represented by their `lifespan[0]`; the result lists the
registrations as pairs of event and tick time, in invocation order.  The
tick times of `dn.tick` are modelled from the spec as a given list (the
source of `dn.tick` is not part of the crate; the spec describes a
monotonic ticker at `1/tickrate`). -/
def gameLoopGo (prepareTime endTime : ℚ) : List ℚ → List ℚ → List (ℚ × ℚ)
  | [], _ => []
  | t :: ts, pending =>
    if endTime ≤ t then []
    else
      (pending.takeWhile (registerReady prepareTime t)).map (fun e => (e, t))
        ++ gameLoopGo prepareTime endTime ts (pending.dropWhile (registerReady prepareTime t))

/-- The registrations a run of the game loop performs, given the tick
times and the events (already sorted by `lifespan[0]`, as
`KAIKOGame.connect` sorts them before the loop). -/
def gameLoopRegs (prepareTime endTime : ℚ) (ticks events : List ℚ) : List (ℚ × ℚ) :=
  gameLoopGo prepareTime endTime ticks events

/-! ## Theorems -/

/-- Taking the default of the first hit among `0, 1, 2` coincides with the
least solution in `{0, 1, 2, 3}` defaulted to `3`: when no solution lies
below `3`, both sides are `3`. -/
lemma findRange3_eq (p : ℕ → Bool) :
    ((List.range 3).find? p).getD 3 = (((List.range 4).filter p).head?).getD 3 := by
  have h3 : List.range 3 = [0, 1, 2] := rfl
  have h4 : List.range 4 = [0, 1, 2, 3] := rfl
  rw [h3, h4]
  cases hp0 : p 0 <;> cases hp1 : p 1 <;> cases hp2 : p 2 <;> cases hp3 : p 3 <;>
    simp [List.find?, List.filter, hp0, hp1, hp2, hp3]

/-- Claim C1: for every tolerance `tol > 0`, `Performance.judge` returns
MISS when the hit time is absent, and otherwise the grade whose shift is
the least `i ∈ {0,1,2,3}` with `|t_hit - t| < tol·(2i+1)` (3 when none),
negated when the error is negative, with the wrong-key flag the negation
of `is_correct_key`; in particular an exact hit is PERFECT, a hit
`1.5·tol` late is LATE_GOOD, a hit `6·tol` early is EARLY_FAILED, and an
absent hit is MISS. -/
theorem judge_matches_spec (tol t ht : ℚ) (k : Bool) (htol : 0 < tol) :
    (Performance.judge tol t none k).grade = Grade.MISS ∧
    (Performance.judge tol t (some ht) k).grade =
      some ((if ht - t < 0 then -(specShiftMin tol (ht - t) : ℤ)
             else (specShiftMin tol (ht - t) : ℤ)), !k) ∧
    (Performance.judge tol t (some t) true).grade = Grade.PERFECT ∧
    (Performance.judge tol t (some (t + 3/2 * tol)) true).grade = Grade.LATE_GOOD ∧
    (Performance.judge tol t (some (t - 6 * tol)) true).grade = Grade.EARLY_FAILED := by
  refine ⟨rfl, ?_, ?_, ?_, ?_⟩
  · simp only [Performance.judge, specShiftMin, findRange3_eq]
  · have h0 : (decide (|t - t| < tol * (2 * ((0 : ℕ) : ℚ) + 1))) = true := by
      simp only [decide_eq_true_eq]
      rw [sub_self, abs_zero]
      norm_num
      linarith
    simp only [Performance.judge]
    rw [show List.range 3 = [0, 1, 2] from rfl]
    simp only [List.find?_cons, h0]
    simp [Grade.PERFECT, sub_self]
  · have herr : t + 3/2 * tol - t = 3/2 * tol := by ring
    have h0 : (decide (|t + 3/2 * tol - t| < tol * (2 * ((0 : ℕ) : ℚ) + 1))) = false := by
      simp only [decide_eq_false_iff_not, not_lt, herr]
      rw [abs_of_pos (by linarith)]
      norm_num
      linarith
    have h1 : (decide (|t + 3/2 * tol - t| < tol * (2 * ((1 : ℕ) : ℚ) + 1))) = true := by
      simp only [decide_eq_true_eq, herr]
      rw [abs_of_pos (by linarith)]
      norm_num
      linarith
    simp only [Performance.judge]
    rw [show List.range 3 = [0, 1, 2] from rfl]
    simp only [List.find?_cons, h0, h1]
    simp [Grade.LATE_GOOD, herr]
    linarith
  · have herr : t - 6 * tol - t = -(6 * tol) := by ring
    have habs : |t - 6 * tol - t| = 6 * tol := by
      rw [herr, abs_neg, abs_of_pos (by linarith)]
    have h0 : (decide (|t - 6 * tol - t| < tol * (2 * ((0 : ℕ) : ℚ) + 1))) = false := by
      simp only [decide_eq_false_iff_not, not_lt, habs]
      norm_num
      linarith
    have h1 : (decide (|t - 6 * tol - t| < tol * (2 * ((1 : ℕ) : ℚ) + 1))) = false := by
      simp only [decide_eq_false_iff_not, not_lt, habs]
      norm_num
      linarith
    have h2 : (decide (|t - 6 * tol - t| < tol * (2 * ((2 : ℕ) : ℚ) + 1))) = false := by
      simp only [decide_eq_false_iff_not, not_lt, habs]
      norm_num
      linarith
    simp only [Performance.judge]
    rw [show List.range 3 = [0, 1, 2] from rfl]
    simp only [List.find?_cons, h0, h1, h2]
    simp [Grade.EARLY_FAILED, herr]
    linarith

/-- Witness for C1 at `tol = 1`, `t = 0`, `t_hit = 5`, correct key. -/
theorem judge_matches_spec_witness :
    (0 : ℚ) < 1 ∧
    ((Performance.judge 1 0 none true).grade = Grade.MISS ∧
    (Performance.judge 1 0 (some 5) true).grade =
      some ((if (5 : ℚ) - 0 < 0 then -(specShiftMin 1 ((5 : ℚ) - 0) : ℤ)
             else (specShiftMin 1 ((5 : ℚ) - 0) : ℤ)), !true) ∧
    (Performance.judge 1 0 (some 0) true).grade = Grade.PERFECT ∧
    (Performance.judge 1 0 (some (0 + 3/2 * 1)) true).grade = Grade.LATE_GOOD ∧
    (Performance.judge 1 0 (some (0 - 6 * 1)) true).grade = Grade.EARLY_FAILED) :=
  ⟨by norm_num, judge_matches_spec 1 0 5 true (by norm_num)⟩

/-- Iterating `Roll.hit` increments the counter by exactly one per hit. -/
lemma roll_hit_iterate (r : Roll) (n : ℕ) :
    Roll.hit^[n] r = { r with roll := r.roll + n } := by
  induction n with
  | zero => simp
  | succ n ih =>
    rw [Function.iterate_succ_apply', ih]
    simp only [Roll.hit]
    push_cast
    ring_nf

/-- Claim C2, counterexample: a roll with `N = int(2·2) = 4` rocks and the
default `rock_score = 2`, after nine hits, scores `0`, while the claimed
formula `min(r, 2N - r)·rock_score` gives `min(9, -1)·2 = -2`. -/
theorem roll_overshoot_cex :
    (Roll.hit^[9] (mkRoll 2 2 2)).roll = 9 ∧
    (Roll.hit^[9] (mkRoll 2 2 2)).number = 4 ∧
    (Roll.hit^[9] (mkRoll 2 2 2)).score = 0 ∧
    min ((9 : ℤ)) (2 * 4 - 9) * 2 = -2 ∧
    (Roll.hit^[9] (mkRoll 2 2 2)).score ≠
      min ((Roll.hit^[9] (mkRoll 2 2 2)).roll)
        (2 * (Roll.hit^[9] (mkRoll 2 2 2)).number - (Roll.hit^[9] (mkRoll 2 2 2)).roll) *
        (Roll.hit^[9] (mkRoll 2 2 2)).rockScore := by
  have hmk : mkRoll 2 2 2 = { rockScore := 2, number := 4, roll := 0 } := by
    simp only [mkRoll, pyInt]
    norm_num
  rw [roll_hit_iterate, hmk]
  refine ⟨rfl, rfl, ?_, by decide, ?_⟩
  · simp [Roll.score]
  · simp [Roll.score]

/-- Claim C2 as amended: each hit increments the counter by one, and the
score is the claimed `min(r, 2N - r)·rock_score` clamped below at zero
(the code returns `0`, not a negative value, once `r ≥ 2N`); with `N = 4`
and six hits the score is `2·rock_score`. -/
theorem roll_score_amended (r : Roll) (n : ℕ) (hn : 0 ≤ r.number) (hr : 0 ≤ r.roll) :
    (Roll.hit^[n] r).roll = r.roll + n ∧
    r.score = max 0 (min r.roll (2 * r.number - r.roll)) * r.rockScore ∧
    ∀ rock : ℤ, (Roll.hit^[6] (mkRoll 2 2 rock)).score = 2 * rock := by
  refine ⟨?_, ?_, ?_⟩
  · rw [roll_hit_iterate]
  · unfold Roll.score
    split_ifs with h1 h2
    · have hm : max 0 (min r.roll (2 * r.number - r.roll)) = r.roll := by omega
      rw [hm]
    · have hm : max 0 (min r.roll (2 * r.number - r.roll)) = 2 * r.number - r.roll := by
        omega
      rw [hm]
    · have hm : max 0 (min r.roll (2 * r.number - r.roll)) = 0 := by omega
      rw [hm]
      ring
  · intro rock
    have hmk : mkRoll 2 2 rock = { rockScore := rock, number := 4, roll := 0 } := by
      simp only [mkRoll, pyInt]
      norm_num
    rw [roll_hit_iterate, hmk]
    simp [Roll.score]

/-- Witness for the amended C2 at a roll with `N = 4`, six hits done. -/
theorem roll_score_amended_witness :
    (0 : ℤ) ≤ 4 ∧ (0 : ℤ) ≤ 6 ∧
    ((Roll.hit^[3] { rockScore := 2, number := 4, roll := 6 : Roll }).roll = 6 + 3 ∧
    ({ rockScore := 2, number := 4, roll := 6 : Roll }).score =
      max 0 (min 6 (2 * 4 - 6)) * 2 ∧
    ∀ rock : ℤ, (Roll.hit^[6] (mkRoll 2 2 rock)).score = 2 * rock) :=
  ⟨by decide, by decide,
    roll_score_amended { rockScore := 2, number := 4, roll := 6 } 3 (by decide) (by decide)⟩

/-- Claim C3: a hit adds `min(1, strength)` to the charge clamped at the
capacity, reaching the capacity finishes the spin, the score of an
unfinished spin is `int(full_score·charge/capacity)` and of a finished one
`full_score` or `0` according to whether the charge reached the capacity;
in the scenario of the spec (capacity 10, charge 7.3 when the window
closes) the spin is finished with score `0`. -/
theorem spin_spec (s : Spin) (strength : ℚ) (hcap : 0 < s.capacity) :
    (s.hit strength).charge = min (s.charge + min 1 strength) s.capacity ∧
    (s.hit strength).charge ≤ s.capacity ∧
    ((s.hit strength).charge = s.capacity → (s.hit strength).isFinished = true) ∧
    (s.isFinished = false → s.score = pyInt ((s.fullScore : ℚ) * s.charge / s.capacity)) ∧
    (s.isFinished = true → s.charge = s.capacity → s.score = s.fullScore) ∧
    (s.isFinished = true → s.charge ≠ s.capacity → s.score = 0) ∧
    spinScenario.isFinished = true ∧ spinScenario.charge = 73/10 ∧ spinScenario.score = 0 := by
  have hscen : spinScenario =
      { fullScore := 16, charge := 73/10, capacity := 10, isFinished := true } := by
    norm_num [spinScenario, Function.iterate_succ_apply, Spin.hit, Spin.finish, min_def]
  have hch : (s.hit strength).charge = min (s.charge + min 1 strength) s.capacity := by
    simp only [Spin.hit]
    split <;> rfl
  refine ⟨hch, ?_, ?_, ?_, ?_, ?_, ?_, ?_, ?_⟩
  · rw [hch]
    exact min_le_right _ _
  · simp only [Spin.hit]
    split_ifs with hc
    · intro _
      rfl
    · intro h
      exact absurd h hc
  · intro h
    simp [Spin.score, h]
  · intro h hq
    simp [Spin.score, h, hq]
  · intro h hq
    simp [Spin.score, h, hq]
  · rw [hscen]
  · rw [hscen]
  · rw [hscen]
    norm_num [Spin.score]

/-- Witness for C3 at a fresh spin of capacity 10 hit with strength 1. -/
theorem spin_spec_witness :
    (0 : ℚ) < 10 ∧
    ((({ fullScore := 16, charge := 0, capacity := 10, isFinished := false : Spin }).hit 1).charge =
      min ((0 : ℚ) + min 1 1) 10 ∧
    (({ fullScore := 16, charge := 0, capacity := 10, isFinished := false : Spin }).hit 1).charge ≤ 10 ∧
    ((({ fullScore := 16, charge := 0, capacity := 10, isFinished := false : Spin }).hit 1).charge = 10 →
      (({ fullScore := 16, charge := 0, capacity := 10, isFinished := false : Spin }).hit 1).isFinished = true) ∧
    (false = false →
      ({ fullScore := 16, charge := 0, capacity := 10, isFinished := false : Spin }).score =
        pyInt (((16 : ℤ) : ℚ) * 0 / 10)) ∧
    ((false : Bool) = true → (0 : ℚ) = 10 →
      ({ fullScore := 16, charge := 0, capacity := 10, isFinished := false : Spin }).score = 16) ∧
    ((false : Bool) = true → (0 : ℚ) ≠ 10 →
      ({ fullScore := 16, charge := 0, capacity := 10, isFinished := false : Spin }).score = 0) ∧
    spinScenario.isFinished = true ∧ spinScenario.charge = 73/10 ∧ spinScenario.score = 0) :=
  ⟨by norm_num,
    spin_spec { fullScore := 16, charge := 0, capacity := 10, isFinished := false } 1 (by norm_num)⟩

/-- Claim C4: `time(beat) = offset + beat·60/tempo`, beat and time are
exact inverses over the rationals when `tempo > 0`, and beat-to-time is
strictly increasing. -/
theorem beatmap_time_beat (bm : Beatmap) (b b1 b2 : ℚ) (ht : 0 < bm.tempo) (hb : b1 < b2) :
    bm.time b = bm.offset + b * 60 / bm.tempo ∧
    bm.beat (bm.time b) = b ∧
    bm.time b1 < bm.time b2 := by
  have htne : bm.tempo ≠ 0 := ne_of_gt ht
  refine ⟨rfl, ?_, ?_⟩
  · unfold Beatmap.time Beatmap.beat
    field_simp
    ring
  · unfold Beatmap.time
    have h2 : b1 * 60 / bm.tempo < b2 * 60 / bm.tempo := by
      gcongr
    linarith

/-- Witness for C4 at `offset = 1`, `tempo = 120`, beats 3 and 3 < 7. -/
theorem beatmap_time_beat_witness :
    (0 : ℚ) < 120 ∧ (3 : ℚ) < 7 ∧
    (Beatmap.time { offset := 1, tempo := 120 } 3 = 1 + 3 * 60 / 120 ∧
    Beatmap.beat { offset := 1, tempo := 120 } (Beatmap.time { offset := 1, tempo := 120 } 3) = 3 ∧
    Beatmap.time { offset := 1, tempo := 120 } 3 < Beatmap.time { offset := 1, tempo := 120 } 7) :=
  ⟨by norm_num, by norm_num,
    beatmap_time_beat { offset := 1, tempo := 120 } 3 3 7 (by norm_num) (by norm_num)⟩

/-- Claim C5: with an empty event list the total full score is `0` and the
rescaling `score_scale = 65536 / total_score` of `KAIKOGame.connect` is a
division by zero (Python raises `ZeroDivisionError`), so startup fails
instead of running the game. -/
theorem connect_empty_scale : connectScale [] = none := rfl

/-- Claim C7: the discard loop of `AudioMixer._shift` for a negative
offset never makes the guard `offset < 0` false: each pass subtracts
(rather than adds) the discarded length `min(-offset, buffer_length)`, so
the offset stays negative after any number of passes and the discarding
phase never completes. -/
theorem shift_discard_loops (bufferLength offset : ℤ) (n : ℕ)
    (hb : 0 < bufferLength) (ho : offset < 0) :
    (shiftDiscardStep bufferLength)^[n] offset < 0 := by
  induction n generalizing offset with
  | zero => simpa using ho
  | succ n ih =>
    rw [Function.iterate_succ_apply]
    apply ih
    unfold shiftDiscardStep
    have hmin : 0 < min (-offset) bufferLength := lt_min (by omega) hb
    omega

/-- Witness for C7 at buffer length 512, offset `-5`, three loop passes. -/
theorem shift_discard_loops_witness :
    (0 : ℤ) < 512 ∧ (-5 : ℤ) < 0 ∧ (shiftDiscardStep 512)^[3] (-5) < 0 :=
  ⟨by decide, by decide, shift_discard_loops 512 (-5) 3 (by decide) (by decide)⟩


lemma unchunkFeedAux_spec (s : ℕ) (hs : 0 < s) :
    ∀ (fuel : ℕ) (buffer data : List ℚ), data.length ≤ fuel → buffer.length < s →
    (∀ b ∈ (unchunkFeedAux s fuel buffer data).1, b.length = s) ∧
    ((unchunkFeedAux s fuel buffer data).1).flatten ++ (unchunkFeedAux s fuel buffer data).2
      = buffer ++ data ∧
    (unchunkFeedAux s fuel buffer data).2.length = (buffer.length + data.length) % s := by
  intro fuel
  induction fuel with
  | zero =>
    intro buffer data hd hb
    have hdata : data = [] := List.eq_nil_of_length_eq_zero (Nat.le_zero.mp hd)
    subst hdata
    simp [unchunkFeedAux, Nat.mod_eq_of_lt hb]
  | succ fuel ih =>
    intro buffer data hd hb
    match data with
    | [] =>
      simp [unchunkFeedAux, Nat.mod_eq_of_lt hb]
    | x :: data =>
      have hlen1 : 1 ≤ min (s - buffer.length) (x :: data).length := by
        simp only [List.length_cons]
        omega
      have hlenle : min (s - buffer.length) (x :: data).length ≤ (x :: data).length :=
        min_le_right _ _
      simp only [unchunkFeedAux, if_pos hb]
      set len := min (s - buffer.length) (x :: data).length with hlendef
      set buffer2 := buffer ++ (x :: data).take len with hbuf2def
      set data2 := (x :: data).drop len with hdata2def
      have hbuf2 : buffer2.length = buffer.length + len := by
        rw [hbuf2def, List.length_append, List.length_take, min_eq_left hlenle]
      have hdata2 : data2.length = (x :: data).length - len := by
        rw [hdata2def]
        simp [List.length_drop]
      have hsplit : buffer2 ++ data2 = buffer ++ x :: data := by
        rw [hbuf2def, hdata2def, List.append_assoc, List.take_append_drop]
      have hminle : len ≤ s - buffer.length := min_le_left _ _
      clear_value len buffer2 data2
      by_cases hfull : buffer2.length = s
      · simp only [if_pos hfull]
        have hd2 : data2.length ≤ fuel := by
          rw [hdata2]
          simp only [List.length_cons] at hd ⊢
          omega
        obtain ⟨ihb, ihj, ihm⟩ := ih [] data2 hd2 (by simpa using hs)
        refine ⟨?_, ?_, ?_⟩
        · intro b hbmem
          rcases List.mem_cons.mp hbmem with h | h
          · rw [h]; exact hfull
          · exact ihb b h
        · rw [List.flatten_cons, List.append_assoc, ihj, List.nil_append, hsplit]
        · have hkey : buffer.length + (x :: data).length = s + data2.length := by
            rw [hdata2]
            rw [hbuf2] at hfull
            omega
          rw [ihm, hkey, Nat.add_mod_left]
          simp
      · simp only [if_neg hfull]
        have hb2 : buffer2.length < s := by
          rw [hbuf2]
          rw [hbuf2] at hfull
          omega
        have hd2 : data2.length ≤ fuel := by
          rw [hdata2]
          simp only [List.length_cons] at hd ⊢
          omega
        obtain ⟨ihb, ihj, ihm⟩ := ih buffer2 data2 hd2 hb2
        refine ⟨ihb, ?_, ?_⟩
        · rw [ihj, hsplit]
        · rw [ihm, hbuf2, hdata2]
          congr 1
          omega

lemma unchunkRun_spec (s : ℕ) (hs : 0 < s) :
    ∀ (inputs : List (List ℚ)) (buffer : List ℚ), buffer.length < s →
    (∀ b ∈ (unchunkRun s buffer inputs).1, b.length = s) ∧
    ((unchunkRun s buffer inputs).1).flatten ++ (unchunkRun s buffer inputs).2
      = buffer ++ inputs.flatten ∧
    (unchunkRun s buffer inputs).2.length = (buffer.length + inputs.flatten.length) % s ∧
    (unchunkRun s buffer inputs).2.length < s := by
  intro inputs
  induction inputs with
  | nil =>
    intro buffer hb
    simp [unchunkRun, Nat.mod_eq_of_lt hb, hb]
  | cons d ds ih =>
    intro buffer hb
    have hfeed : unchunkFeed s buffer d = unchunkFeedAux s d.length buffer d := rfl
    obtain ⟨fb, fj, fm⟩ := unchunkFeedAux_spec s hs d.length buffer d le_rfl hb
    have hfb2 : (unchunkFeed s buffer d).2.length < s := by
      rw [hfeed, fm]
      exact Nat.mod_lt _ hs
    obtain ⟨rb, rj, rm, rlt⟩ := ih (unchunkFeed s buffer d).2 hfb2
    refine ⟨?_, ?_, ?_, ?_⟩
    · intro b hbmem
      simp only [unchunkRun, List.mem_append] at hbmem
      rcases hbmem with h | h
      · exact fb b (by rw [hfeed] at h; exact h)
      · exact rb b h
    · simp only [unchunkRun, List.flatten_append, List.flatten_cons]
      rw [List.append_assoc, rj, ← List.append_assoc, hfeed, fj, List.append_assoc]
    · simp only [unchunkRun, List.flatten_cons, List.length_append]
      rw [rm, hfeed, fm, Nat.mod_add_mod]
      congr 1
      omega
    · simpa [unchunkRun] using rlt

/-- Claim C6, counterexample: with block size 2 and a single one-element
input, the stream ends with one leftover element, and on close the inner
node of `unchunk` receives nothing at all, not a zero-padded block. -/
theorem unchunk_no_padding_cex :
    unchunkSends 2 [[1]] = [] ∧ unchunkSends 2 [[1]] ≠ [[(1 : ℚ), 0]] := by
  have h : unchunkSends 2 [[1]] = [] := by
    simp [unchunkSends, unchunkRun, unchunkFeed, unchunkFeedAux]
  exact ⟨h, by rw [h]; simp⟩

/-- Claim C6 as amended: the inner node receives exactly the full blocks,
of size `s` each, in element order; a trailing group of `k < s` leftover
elements (`k = total length mod s`) stays in the buffer and is discarded
on close, not zero-padded. -/
theorem unchunk_amended (s : ℕ) (hs : 0 < s) (inputs : List (List ℚ)) :
    (∀ b ∈ unchunkSends s inputs, b.length = s) ∧
    (unchunkSends s inputs).flatten ++ (unchunkRun s [] inputs).2 = inputs.flatten ∧
    ((unchunkRun s [] inputs).2).length = inputs.flatten.length % s := by
  obtain ⟨hb, hj, hm, _⟩ := unchunkRun_spec s hs inputs [] (by simpa using hs)
  exact ⟨hb, by simpa using hj, by simpa using hm⟩

/-- Witness for the amended C6 at `s = 2`, inputs `[[1], [2, 3]]`. -/
theorem unchunk_amended_witness :
    0 < 2 ∧
    ((∀ b ∈ unchunkSends 2 [[(1 : ℚ)], [2, 3]], b.length = 2) ∧
    (unchunkSends 2 [[(1 : ℚ)], [2, 3]]).flatten ++ (unchunkRun 2 [] [[(1 : ℚ)], [2, 3]]).2
      = [[(1 : ℚ)], [2, 3]].flatten ∧
    ((unchunkRun 2 [] [[(1 : ℚ)], [2, 3]]).2).length = [[(1 : ℚ)], [2, 3]].flatten.length % 2) :=
  ⟨by norm_num, unchunk_amended 2 (by norm_num) [[(1 : ℚ)], [2, 3]]⟩

lemma slice_mapRange (n a L : ℕ) (h : a + L ≤ n) (f : ℕ → ℚ) :
    (((List.range n).map f).drop a).take L = (List.range L).map (fun i => f (a + i)) := by
  apply List.ext_getElem
  · simp
    omega
  · intro i h1 h2
    simp

lemma mapRange_getD (n : ℕ) (f : ℕ → ℚ) (i : ℕ) (h : i < n) :
    ((List.range n).map f).getD i 0 = f i := by
  rw [List.getD_eq_getElem?_getD]
  simp [h]

lemma winStep (N : ℕ) (f g : ℕ → ℚ) (x : ℚ)
    (hfg : ∀ i, i < N → g i = f (i + 1)) (hx : x = g N) :
    ((List.range (N + 1)).map f).tail ++ [x] = (List.range (N + 1)).map g := by
  apply List.ext_getElem
  · simp
  · intro i h1 h2
    simp only [List.length_append, List.length_tail, List.length_map, List.length_range,
      List.length_cons, List.length_nil] at h1
    by_cases hi : i < N
    · rw [List.getElem_append_left (by simpa using hi)]
      rw [List.getElem_tail]
      simp only [List.getElem_map, List.getElem_range]
      exact (hfg i hi).symm
    · have hiN : i = N := by omega
      subst hiN
      rw [List.getElem_append_right (by simp)]
      simp [hx]

lemma pickStep_eq (pm qm pa qa wait : ℕ) (delta : ℚ) (xs : List ℚ) (m : ℕ)
    (last : Option ℕ) :
    pickStep pm qm pa qa wait delta
      { buffer := winBuf xs (max pm pa + max qm qa + 1) (m : ℤ),
        index := (m : ℤ) - ((max qm qa : ℕ) : ℤ),
        prev := lastPrev (max qm qa) wait last }
      (xs.getD m 0)
    = (specDetect pm qm pa qa wait delta xs last m,
       { buffer := winBuf xs (max pm pa + max qm qa + 1) ((m + 1 : ℕ) : ℤ),
         index := ((m + 1 : ℕ) : ℤ) - ((max qm qa : ℕ) : ℤ),
         prev := lastPrev (max qm qa) wait
           (if specDetect pm qm pa qa wait delta xs last m then some m else last) }) := by
  have hx : xs.getD m 0 = paddedGet xs (m : ℤ) := by
    unfold paddedGet
    rw [if_pos (Int.natCast_nonneg m)]
    simp
  have hbuf : (winBuf xs (max pm pa + max qm qa + 1) (m : ℤ)).tail ++ [xs.getD m 0]
      = winBuf xs (max pm pa + max qm qa + 1) ((m + 1 : ℕ) : ℤ) := by
    rw [hx]
    unfold winBuf
    apply winStep
    · intro i hi
      congr 1
      omega
    · congr 1
      omega
  have hstr : (winBuf xs (max pm pa + max qm qa + 1) ((m + 1 : ℕ) : ℤ)).getD (max pm pa) 0
      = paddedGet xs ((m : ℤ) - ((max qm qa : ℕ) : ℤ)) := by
    unfold winBuf
    rw [mapRange_getD _ _ _ (by omega)]
    congr 1
    omega
  have hmaxw : ((winBuf xs (max pm pa + max qm qa + 1) ((m + 1 : ℕ) : ℤ)).drop
        (max pm pa - pm)).take (pm + qm + 1)
      = specWindow xs ((m : ℤ) - ((max qm qa : ℕ) : ℤ)) pm qm := by
    unfold winBuf specWindow
    rw [slice_mapRange _ _ _ (by omega)]
    apply List.map_congr_left
    intro i hi
    congr 1
    omega
  have havgw : ((winBuf xs (max pm pa + max qm qa + 1) ((m + 1 : ℕ) : ℤ)).drop
        (max pm pa - pa)).take (pa + qa + 1)
      = specWindow xs ((m : ℤ) - ((max qm qa : ℕ) : ℤ)) pa qa := by
    unfold winBuf specWindow
    rw [slice_mapRange _ _ _ (by omega)]
    apply List.map_congr_left
    intro i hi
    congr 1
    omega
  have hlenw : (specWindow xs ((m : ℤ) - ((max qm qa : ℕ) : ℤ)) pa qa).length = pa + qa + 1 := by
    simp [specWindow]
  have hgate : (decide (lastPrev (max qm qa) wait last + (wait : ℤ)
        < (m : ℤ) - ((max qm qa : ℕ) : ℤ) + 1))
      = specGate (max qm qa) wait last m := by
    cases last with
    | none =>
      simp only [lastPrev, specGate]
      rw [decide_eq_decide]
      omega
    | some p =>
      simp only [lastPrev, specGate]
      rw [decide_eq_decide]
      omega
  unfold pickStep
  dsimp only
  rw [hbuf, hstr, hmaxw, havgw, hlenw, hgate]
  unfold specDetect
  dsimp only
  simp only [Prod.mk.injEq, PickState.mk.injEq]
  refine ⟨trivial, trivial, by omega, ?_⟩
  split <;> rename_i hB
  · simp only [lastPrev]
    omega
  · rfl


lemma pickRun_eq (pm qm pa qa wait : ℕ) (delta : ℚ) (xs : List ℚ) :
    ∀ (rest : List ℚ) (m : ℕ) (last : Option ℕ), rest = xs.drop m →
    pickRun pm qm pa qa wait delta
      { buffer := winBuf xs (max pm pa + max qm qa + 1) (m : ℤ),
        index := (m : ℤ) - ((max qm qa : ℕ) : ℤ),
        prev := lastPrev (max qm qa) wait last } rest
    = specGo pm qm pa qa wait delta xs rest.length m last := by
  intro rest
  induction rest with
  | nil =>
    intro m last h
    rfl
  | cons x rest2 ih =>
    intro m last h
    have hm : m < xs.length := by
      by_contra hc
      have hnil : xs.drop m = [] := List.drop_eq_nil_iff.mpr (by omega)
      rw [hnil] at h
      exact List.cons_ne_nil x rest2 h
    have hd := List.drop_eq_getElem_cons (l := xs) (n := m) hm
    rw [hd] at h
    have hx : x = xs.getD m 0 := by
      have := (List.cons.injEq _ _ _ _).mp h
      rw [this.1]
      rw [List.getD_eq_getElem?_getD, List.getElem?_eq_getElem hm]
      rfl
    have hrest2 : rest2 = xs.drop (m + 1) := ((List.cons.injEq _ _ _ _).mp h).2
    simp only [pickRun]
    rw [hx, pickStep_eq pm qm pa qa wait delta xs m last]
    rw [ih (m + 1) (if specDetect pm qm pa qa wait delta xs last m then some m else last) hrest2]
    simp only [List.length_cons, specGo]

lemma winBuf_zero (xs : List ℚ) (N : ℕ) :
    winBuf xs N ((0 : ℕ) : ℤ) = List.replicate N (0 : ℚ) := by
  unfold winBuf
  apply List.ext_getElem
  · simp
  · intro i h1 h2
    simp only [List.getElem_map, List.getElem_range, List.getElem_replicate]
    have hi : i < N := by simpa using h1
    unfold paddedGet
    rw [if_neg (by omega)]

lemma pick_peak_eq_spec (pm qm pa qa wait : ℕ) (delta : ℚ) (xs : List ℚ) :
    pick_peak pm qm pa qa wait delta xs = pickPeakSpec pm qm pa qa wait delta xs := by
  have h := pickRun_eq pm qm pa qa wait delta xs xs 0 none (by simp)
  rw [winBuf_zero] at h
  simp only [Nat.cast_zero, zero_sub, lastPrev] at h
  unfold pick_peak pickPeakSpec pickInit
  exact h

lemma specGo_length (pm qm pa qa wait : ℕ) (delta : ℚ) (xs : List ℚ) :
    ∀ (n k : ℕ) (last : Option ℕ),
      (specGo pm qm pa qa wait delta xs n k last).length = n := by
  intro n
  induction n with
  | zero => intro k last; rfl
  | succ n ih =>
    intro k last
    simp only [specGo, List.length_cons, ih]

lemma specGo_warmup (pm qm pa qa wait : ℕ) (delta : ℚ) (xs : List ℚ) :
    ∀ (n k0 j : ℕ), k0 + j < max qm qa →
      (specGo pm qm pa qa wait delta xs n k0 none).getD j false = false := by
  intro n
  induction n with
  | zero =>
    intro k0 j hj
    simp [specGo]
  | succ n ih =>
    intro k0 j hj
    have hdet : specDetect pm qm pa qa wait delta xs none k0 = false := by
      unfold specDetect specGate
      dsimp only
      rw [decide_eq_false (by omega)]
      simp
    simp only [specGo, hdet]
    match j with
    | 0 => rfl
    | j + 1 =>
      simp only [List.getD_cons_succ]
      rw [if_neg (by simp)]
      exact ih (k0 + 1) j (by omega)


/-- Claim C8: on every input stream, `pick_peak` behaves exactly as the
spec describes: each output is delayed by `max(post_max, post_avg)`
samples and is true iff the decision sample equals the maximum of the
window `[-pre_max, +post_max]`, is at least the mean of the window
`[-pre_avg, +post_avg]` plus `delta`, and at least `wait` samples lie
strictly between the previous detection and it; one output per input. -/
theorem pick_peak_correct (preMax postMax preAvg postAvg wait : ℕ) (delta : ℚ)
    (xs : List ℚ) :
    pick_peak preMax postMax preAvg postAvg wait delta xs
      = pickPeakSpec preMax postMax preAvg postAvg wait delta xs ∧
    (pick_peak preMax postMax preAvg postAvg wait delta xs).length = xs.length := by
  refine ⟨pick_peak_eq_spec _ _ _ _ _ _ _, ?_⟩
  rw [pick_peak_eq_spec]
  unfold pickPeakSpec
  exact specGo_length _ _ _ _ _ _ _ _ _ _

/-- Claim C10: the first `max(post_max, post_avg)` outputs of `pick_peak`
are false on every input: the internal step index starts at
`-max(post_max, post_avg)` and `prev_index` at `-wait`, so the detection
gate `index > prev_index + wait` cannot open before the built-in delay
has elapsed. -/
theorem pick_peak_warmup (preMax postMax preAvg postAvg wait : ℕ) (delta : ℚ)
    (xs : List ℚ) (k : ℕ) (hk : k < max postMax postAvg) :
    (pickInit preMax postMax preAvg postAvg wait).index
        = -((max postMax postAvg : ℕ) : ℤ) ∧
    (pickInit preMax postMax preAvg postAvg wait).prev = -(wait : ℤ) ∧
    (pick_peak preMax postMax preAvg postAvg wait delta xs).getD k false = false := by
  refine ⟨rfl, rfl, ?_⟩
  rw [pick_peak_eq_spec]
  unfold pickPeakSpec
  exact specGo_warmup _ _ _ _ _ _ _ _ 0 k (by omega)

/-- Witness for C10 at parameters `(1, 1, 1, 1, 0)`, `delta = 0`, the
input `[5, 0, 0]` and output position `0`. -/
theorem pick_peak_warmup_witness :
    0 < max 1 1 ∧
    ((pickInit 1 1 1 1 0).index = -((max 1 1 : ℕ) : ℤ) ∧
    (pickInit 1 1 1 1 0).prev = -((0 : ℕ) : ℤ) ∧
    (pick_peak 1 1 1 1 0 0 [5, 0, 0]).getD 0 false = false) :=
  ⟨by decide, pick_peak_warmup 1 1 1 1 0 0 [5, 0, 0] 0 (by decide)⟩



lemma sorted_dropWhile_not (c : ℚ) :
    ∀ (l : List ℚ), l.Sorted (· ≤ ·) →
      ∀ x ∈ l.dropWhile (fun e => decide (e ≤ c)), ¬ x ≤ c := by
  intro l
  induction l with
  | nil => simp
  | cons a l ih =>
    intro hl x hx
    by_cases ha : a ≤ c
    · rw [List.dropWhile_cons_of_pos (by simpa using ha)] at hx
      exact ih (List.sorted_cons.mp hl).2 x hx
    · rw [List.dropWhile_cons_of_neg (by simpa using ha)] at hx
      rcases List.mem_cons.mp hx with rfl | hx2
      · exact ha
      · intro hxc
        exact ha (le_trans ((List.sorted_cons.mp hl).1 x hx2) hxc)

lemma gameLoopGo_spec (prepare endTime : ℚ) :
    ∀ (ticks events : List ℚ),
      events.Sorted (· ≤ ·) →
      ticks.Sorted (· < ·) →
      (∀ e ∈ events, ∃ t ∈ ticks, t < endTime ∧ e ≤ t + prepare) →
      (gameLoopGo prepare endTime ticks events).map Prod.fst = events ∧
      ∀ p ∈ gameLoopGo prepare endTime ticks events,
        p.2 ∈ ticks ∧ p.1 ≤ p.2 + prepare ∧
          ∀ s ∈ ticks, s < p.2 → ¬ p.1 ≤ s + prepare := by
  intro ticks
  induction ticks with
  | nil =>
    intro events _ _ hcov
    have hev : events = [] := by
      rw [List.eq_nil_iff_forall_not_mem]
      intro e he
      obtain ⟨t, ht, _⟩ := hcov e he
      exact List.not_mem_nil t ht
    subst hev
    exact ⟨rfl, by simp [gameLoopGo]⟩
  | cons t ts ih =>
    intro events hev htk hcov
    by_cases hend : endTime ≤ t
    · have hevnil : events = [] := by
        rw [List.eq_nil_iff_forall_not_mem]
        intro e he
        obtain ⟨u, hu, hult, _⟩ := hcov e he
        rcases List.mem_cons.mp hu with rfl | hu2
        · exact absurd hend (not_le.mpr hult)
        · exact absurd hult (not_lt.mpr (le_of_lt (lt_of_le_of_lt hend
            ((List.sorted_cons.mp htk).1 u hu2))))
      subst hevnil
      simp only [gameLoopGo, if_pos hend]
      exact ⟨rfl, by simp⟩
    · simp only [gameLoopGo, if_neg hend]
      have hsplit := List.takeWhile_append_dropWhile (registerReady prepare t) events
      have htake : ∀ e ∈ events.takeWhile (registerReady prepare t), e ≤ t + prepare := by
        intro e he
        have := List.mem_takeWhile_imp he
        simpa [registerReady] using this
      have hdropmem : ∀ e ∈ events.dropWhile (registerReady prepare t), ¬ e ≤ t + prepare := by
        intro e he
        exact sorted_dropWhile_not (t + prepare) events hev e (by simpa [registerReady] using he)
      have hdropsub : (events.dropWhile (registerReady prepare t)).Sublist events :=
        List.dropWhile_sublist _
      have hdropsorted : (events.dropWhile (registerReady prepare t)).Sorted (· ≤ ·) :=
        hev.sublist hdropsub
      have hdropcov : ∀ e ∈ events.dropWhile (registerReady prepare t),
          ∃ u ∈ ts, u < endTime ∧ e ≤ u + prepare := by
        intro e he
        obtain ⟨u, hu, hult, heu⟩ := hcov e (hdropsub.mem he)
        rcases List.mem_cons.mp hu with rfl | hu2
        · exact absurd heu (hdropmem e he)
        · exact ⟨u, hu2, hult, heu⟩
      obtain ⟨ih1, ih2⟩ := ih (events.dropWhile (registerReady prepare t))
        hdropsorted (List.sorted_cons.mp htk).2 hdropcov
      constructor
      · rw [List.map_append, List.map_map]
        rw [ih1]
        have : (Prod.fst ∘ fun e => ((e : ℚ), t)) = id := rfl
        rw [this, List.map_id]
        exact hsplit
      · intro p hp
        rcases List.mem_append.mp hp with hpin | hpin
        · obtain ⟨e, he, rfl⟩ := List.mem_map.mp hpin
          refine ⟨List.mem_cons_self t ts, htake e he, ?_⟩
          intro s hs hst
          rcases List.mem_cons.mp hs with rfl | hs2
          · exact absurd hst (lt_irrefl s)
          · exact absurd hst (not_lt.mpr (le_of_lt ((List.sorted_cons.mp htk).1 s hs2)))
        · obtain ⟨hp2, hp3, hp4⟩ := ih2 p hpin
          refine ⟨List.mem_cons_of_mem t hp2, hp3, ?_⟩
          intro s hs hst
          rcases List.mem_cons.mp hs with rfl | hs2
          · have hp1mem := List.mem_map_of_mem Prod.fst hpin
            rw [ih1] at hp1mem
            exact hdropmem p.1 hp1mem
          · exact hp4 s hs2 hst

/-- Claim C9: over a complete run of the game loop (sorted events as
`connect` sorts them, strictly increasing tick times, and for every event
some tick before the end-of-loop bound at which its registration test
holds), `register` is invoked exactly once per event - the sequence of
registered events is exactly the sorted event list - in non-decreasing
order of `lifespan[0]`, and each event is registered at the first tick `t`
with `lifespan[0] ≤ t + prepare_time`. -/
theorem register_loop_spec (prepare endTime : ℚ) (ticks events : List ℚ)
    (hev : events.Sorted (· ≤ ·))
    (htk : ticks.Sorted (· < ·))
    (hcov : ∀ e ∈ events, ∃ t ∈ ticks, t < endTime ∧ e ≤ t + prepare) :
    (gameLoopRegs prepare endTime ticks events).map Prod.fst = events ∧
    ((gameLoopRegs prepare endTime ticks events).map Prod.fst).Sorted (· ≤ ·) ∧
    ∀ p ∈ gameLoopRegs prepare endTime ticks events,
      p.2 ∈ ticks ∧ p.1 ≤ p.2 + prepare ∧
        ∀ s ∈ ticks, s < p.2 → ¬ p.1 ≤ s + prepare := by
  unfold gameLoopRegs
  obtain ⟨h1, h2⟩ := gameLoopGo_spec prepare endTime ticks events hev htk hcov
  exact ⟨h1, by rw [h1]; exact hev, h2⟩

/-- Witness for C9 at `prepare = 1`, end bound 100, ticks `[0, 2, 4]`,
events `[1, 3]`. -/
theorem register_loop_spec_witness :
    ([(1 : ℚ), 3].Sorted (· ≤ ·)) ∧ ([(0 : ℚ), 2, 4].Sorted (· < ·)) ∧
    ((gameLoopRegs 1 100 [0, 2, 4] [1, 3]).map Prod.fst = [1, 3] ∧
    ((gameLoopRegs 1 100 [0, 2, 4] [1, 3]).map Prod.fst).Sorted (· ≤ ·) ∧
    ∀ p ∈ gameLoopRegs 1 100 [0, 2, 4] [1, 3],
      p.2 ∈ [(0 : ℚ), 2, 4] ∧ p.1 ≤ p.2 + 1 ∧
        ∀ s ∈ [(0 : ℚ), 2, 4], s < p.2 → ¬ p.1 ≤ s + 1) := by
  refine ⟨?_, ?_, ?_⟩
  · simp [List.sorted_cons]
  · simp [List.sorted_cons]
    norm_num
  · apply register_loop_spec 1 100 [0, 2, 4] [1, 3]
    · simp [List.sorted_cons]
    · simp [List.sorted_cons]
      norm_num
    · intro e he
      simp only [List.mem_cons, List.not_mem_nil, or_false] at he
      rcases he with rfl | rfl
      · refine ⟨0, by simp, by norm_num, by norm_num⟩
      · refine ⟨2, by simp, by norm_num, by norm_num⟩

end KAIKO
